import Mathlib

/-!
Verification development for the placeholder-resolution and
combinatorial-expansion engine of `app.py` (RogueGPT).

Strings are embedded as `List Char`; Python dictionaries are embedded as
association lists (`List (String × _)` or `List (List Char × _)`) whose
entry order is the dictionary's insertion/iteration order.
-/

set_option maxHeartbeats 1000000

/-- Boolean test that `pat` is a prefix of `s` (used to locate occurrences
of a pattern, as Python's `str.replace` does). -/
def startsWithL : List Char → List Char → Bool
  | [], _ => true
  | _ :: _, [] => false
  | p :: ps, c :: cs => p = c && startsWithL ps cs

/-- Fuel-driven worker for `replaceL`.  When the pattern is a prefix of the
remaining input, it is consumed and the replacement emitted; otherwise one
character is copied.  With fuel at least the length of the input this is
exactly Python's `str.replace(pat, rep)` (all non-overlapping occurrences,
scanned left to right). -/
def replaceGo (pat rep : List Char) : Nat → List Char → List Char
  | _, [] => []
  | 0, s => s
  | n + 1, c :: s =>
    if startsWithL pat (c :: s) then rep ++ replaceGo pat rep n (s.drop (pat.length - 1))
    else c :: replaceGo pat rep n s

/-- Embedding of Python `s.replace(pat, rep)` on character lists. -/
def replaceL (pat rep s : List Char) : List Char :=
  replaceGo pat rep s.length s

/-- The placeholder token `[[k]]` for a placeholder name `k`
(source: `f"[[{key}]]"`). -/
def phTok (k : List Char) : List Char :=
  '[' :: '[' :: (k ++ [']', ']'])

/-- Embedding of the per-combination substitution loop
(`for key, value in combination.items(): prompt_filled =
prompt_filled.replace(f"[[{key}]]", value)`, app.py lines 296-299 and
500-503): a left fold of `replaceL` over the combination's entries. -/
def fillTemplate (t : List Char) (comb : List (List Char × List Char)) : List Char :=
  comb.foldl (fun acc kv => replaceL (phTok kv.1) kv.2 acc) t

/-- `fillTemplate` for combinations keyed by `String` (as the Python dicts
are). -/
def fillTemplateS (t : List Char) (comb : List (String × String)) : List Char :=
  fillTemplate t (comb.map fun kv => (kv.1.data, kv.2.data))

/-- Boolean substring test: some suffix of `s` starts with `tok`. -/
def hasSub (s tok : List Char) : Bool :=
  startsWithL tok s ||
    match s with
    | [] => false
    | _ :: t => hasSub t tok

/-- State of the scanner automaton for the regex `\[\[(.*?)\]\]`:
outside any token (`out0`), outside having just read one `[` (`out1`),
inside a token accumulating the name (`ins`), inside having just read one
`]` (`insR`). -/
inductive ScanState where
  | out0
  | out1
  | ins (acc : List Char)
  | insR (acc : List Char)

/-- One-pass scanner implementing Python's
`re.findall(r"\[\[(.*?)\]\]", s)` (app.py lines 243 and 401): find each
`[[`, then lazily the nearest following `]]`, emit the characters in
between, and continue after the closing `]]`; unterminated opens emit
nothing.  The `.` metacharacter does not match a newline (no
`re.DOTALL`), so a bracket pair whose content reaches a newline never
matches: the pending token is abandoned and scanning resumes after the
newline, which is faithful because every candidate `[[` start strictly
before the newline sees the same newline before any `]]` (no `]]` occurs
between the abandoned opening and the newline, else the token would have
closed), and neither the newline position nor the one before it can
start a `[[`. -/
def scanAux : ScanState → List Char → List (List Char)
  | _, [] => []
  | .out0, c :: s => if c = '[' then scanAux .out1 s else scanAux .out0 s
  | .out1, c :: s => if c = '[' then scanAux (.ins []) s else scanAux .out0 s
  | .ins acc, c :: s =>
    if c = ']' then scanAux (.insR acc) s
    else if c = '\n' then scanAux .out0 s
    else scanAux (.ins (acc ++ [c])) s
  | .insR acc, c :: s =>
    if c = ']' then acc :: scanAux .out0 s
    else if c = '\n' then scanAux .out0 s
    else scanAux (.ins (acc ++ [']', c])) s

/-- Embedding of `re.findall(r"\[\[(.*?)\]\]", s)`: the ordered sequence
of placeholder names, duplicates preserved; bracket pairs whose content
contains a newline do not match. -/
def scanPlaceholders (s : List Char) : List (List Char) :=
  scanAux .out0 s

/-- Embedding of `[ph for ph in placeholders if ph not in all_possible_keys]`
(app.py lines 244 and 402). -/
def uncoveredPlaceholders (t : List Char) (known : List String) : List String :=
  ((scanPlaceholders t).map fun n => String.mk n).filter fun p => ¬ p ∈ known

/-- A value of the selections dictionary before normalization: Python's
`Union[str, List[str]]`. -/
inductive SelValue where
  | str (s : String)
  | list (l : List String)
deriving DecidableEq

/-- Embedding of `fix_structure` (app.py lines 135-151): every list value
passes through unchanged, every scalar becomes a singleton list, entries
kept in iteration order. -/
def fix_structure : List (String × SelValue) → List (String × List String)
  | [] => []
  | (k, SelValue.list l) :: rest => (k, l) :: fix_structure rest
  | (k, SelValue.str s) :: rest => (k, [s]) :: fix_structure rest

/-- The per-value transformation performed by `fix_structure`: a list is
kept, a scalar becomes a singleton list. -/
def selToList : SelValue → List String
  | SelValue.str s => [s]
  | SelValue.list l => l

/-- Cartesian product of a list of lists, rightmost axis varying fastest:
the semantics of `itertools.product(*values)`. -/
def listProd : List (List α) → List (List α)
  | [] => [[]]
  | l :: ls => l.flatMap fun x => (listProd ls).map fun t => x :: t

/-- Embedding of the Combination Expander (app.py lines 292-293 and
494-495): `keys, values = zip(*iter_selections.items())` followed by
`[dict(zip(keys, v)) for v in itertools.product(*values)]`.  On an empty
dictionary the unpacking of `zip()` raises `ValueError`, embedded as
`none`. -/
def expandCombinations (sel : List (String × List String)) :
    Option (List (List (String × String))) :=
  match sel with
  | [] => none
  | _ => some ((listProd (sel.map fun kv => kv.2)).map fun vs =>
      List.zip (sel.map fun kv => kv.1) vs)

/-- First-match lookup in an association list, i.e. Python dict access for
a dict embedded with its insertion order. -/
def lookupS (k : String) : List (String × α) → Option α
  | [] => none
  | kv :: rest => if kv.1 = k then some kv.2 else lookupS k rest

/-- Embedding of Python `d[k] = v` on an insertion-ordered dictionary: an
existing key keeps its position and gets the new value, a new key is
appended. -/
def dictAssign (d : List (String × α)) (k : String) (v : α) : List (String × α) :=
  if d.any fun kv => kv.1 = k then d.map fun kv => if kv.1 = k then (k, v) else kv
  else d ++ [(k, v)]

/-- Embedding of Python `dict(a, **b)`: the entries of `a` in order, with
values overridden by `b` where `b` has the same key, followed by the
entries of `b` whose keys are new, in `b`'s order. -/
def dictUpdate (a b : List (String × String)) : List (String × String) :=
  (a.map fun kv =>
    match lookupS kv.1 b with
    | some v => (kv.1, v)
    | none => kv) ++
  b.filter fun kv => (lookupS kv.1 a).isNone

/-- An external news record: title, description and source URL
(the fields of the objects returned by `get_news` that
`articles_to_placeholder` reads). -/
structure Article where
  title : String
  description : String
  url : String
deriving DecidableEq

/-- Embedding of `articles_to_placeholder` (app.py lines 338-344). -/
def articles_to_placeholder (articles : List Article) : List (List (String × String)) :=
  articles.map fun a =>
    [("SourceArticleTitle", a.title),
     ("SourceArticleDescription", a.description),
     ("SourceArticleUrl", a.url)]

/-- Embedding of the External-Record Merger (app.py lines 496-497):
`[dict(el[0], **el[1]) for el in itertools.product(combinations,
news_articles)]` — combinations vary slower than records. -/
def mergeArticles (combinations news : List (List (String × String))) :
    List (List (String × String)) :=
  combinations.flatMap fun c => news.map fun a => dictUpdate c a

/-- Embedding of Python `user_input.split("\n")` on character lists:
splitting on newline separators, where the empty string yields one empty
field. -/
def splitNLChars : List Char → List (List Char)
  | [] => [[]]
  | c :: rest =>
    if c = '\n' then [] :: splitNLChars rest
    else
      match splitNLChars rest with
      | [] => [[c]]
      | h :: t => (c :: h) :: t

/-- `split("\n")` on `String`s. -/
def splitNL (s : String) : List String :=
  (splitNLChars s.data).map fun l => String.mk l

mutual
/-- A node of the option-taxonomy configuration tree: a JSON value that is
either a list of strings or a nested dictionary (the only shapes
`render_ui` and `collect_keys` branch on). -/
inductive Node where
  | vlist (vs : List String)
  | vdict (es : Entries)
/-- The entries of a taxonomy dictionary, in insertion order. -/
inductive Entries where
  | enil
  | econs (key : String) (val : Node) (rest : Entries)
end

mutual
/-- Embedding of `collect_keys` (app.py lines 117-133) with the
accumulator made explicit: for every entry the key is appended; for a
dictionary value, `collect_keys` is called on each of its sub-values in
turn.  A sub-value that is a list makes that recursive call iterate
`.items()` on a Python list, raising `AttributeError`, embedded as
`none`. -/
def collect_keys : Entries → List String → Option (List String)
  | Entries.enil, acc => some acc
  | Entries.econs k (Node.vlist _) rest, acc => collect_keys rest (acc ++ [k])
  | Entries.econs k (Node.vdict es) rest, acc =>
    match collect_subs es (acc ++ [k]) with
    | none => none
    | some acc2 => collect_keys rest acc2
/-- The inner loop of `collect_keys` over the sub-values of a dictionary
value. -/
def collect_subs : Entries → List String → Option (List String)
  | Entries.enil, acc => some acc
  | Entries.econs _ (Node.vlist _) _, _ => none
  | Entries.econs _ (Node.vdict es) rest, acc =>
    match collect_keys es acc with
    | none => none
    | some acc2 => collect_subs rest acc2
end

mutual
/-- Embedding of `render_ui` (app.py lines 90-115) at its default widget
state: a selectbox returns its first option and a multiselect returns all
options (the declared defaults).  A dictionary value with no variants
makes the selectbox return `None` and the subsequent indexing raise
`KeyError` (`none`); a variant whose value is not a dictionary makes
`.items()` raise (`none`); nested values that are not lists are silently
skipped. -/
def render_ui_default : Entries → Option (List (String × SelValue))
  | Entries.enil => some []
  | Entries.econs k (Node.vlist vs) rest =>
    match render_ui_default rest with
    | none => none
    | some sels => some ((k, SelValue.list vs) :: sels)
  | Entries.econs _ (Node.vdict Entries.enil) _ => none
  | Entries.econs _ (Node.vdict (Entries.econs _ (Node.vlist _) _)) _ => none
  | Entries.econs k (Node.vdict (Entries.econs v0k (Node.vdict nested) _)) rest =>
    match render_ui_default rest with
    | none => none
    | some sels => some ((k, SelValue.str v0k) :: renderNested nested ++ sels)
/-- The nested-widget loop of `render_ui` over a selected variant's
entries. -/
def renderNested : Entries → List (String × SelValue)
  | Entries.enil => []
  | Entries.econs nk (Node.vlist vs) rest => (nk, SelValue.list vs) :: renderNested rest
  | Entries.econs _ (Node.vdict _) rest => renderNested rest
end

mutual
/-- Nesting depth of a taxonomy node: number of dictionary levels along
the deepest path (a plain value list has depth 0). -/
def nodeDepth : Node → Nat
  | Node.vlist _ => 0
  | Node.vdict es => 1 + entriesDepth es
/-- Depth of the deepest value of a dictionary. -/
def entriesDepth : Entries → Nat
  | Entries.enil => 0
  | Entries.econs _ v rest => max (nodeDepth v) (entriesDepth rest)
end

/-- A linear taxonomy chain of `n` nested dictionaries (all keyed `"K"`)
ending in a value list. -/
def nodeChain : Nat → Node
  | 0 => Node.vlist ["x"]
  | n + 1 => Node.vdict (Entries.econs "K" (nodeChain n) Entries.enil)

/-- A one-category taxonomy whose single value is `nodeChain n`. -/
def chainEntries (n : Nat) : Entries :=
  Entries.econs "K" (nodeChain n) Entries.enil

/-- A taxonomy nested two levels deeper than the supported
category → variant → sub-category shape: the sub-category value is itself
a dictionary of dictionaries. -/
def deepTaxonomy : Entries :=
  Entries.econs "Category" (Node.vdict (Entries.econs "Variant" (Node.vdict
    (Entries.econs "SubCat" (Node.vdict (Entries.econs "SubVariant" (Node.vdict
      (Entries.econs "DeepKey" (Node.vlist ["x"]) Entries.enil)) Entries.enil))
      Entries.enil)) Entries.enil)) Entries.enil

/-- Two successive calls of `collect_keys` that both rely on the default
accumulator argument.  In CPython the default list `collected_keys = []`
is evaluated once at definition time and mutated in place by `append`, so
the second call starts from the list the first call returned; this models
that shared state by threading the first call's result in as the second
call's starting accumulator. -/
def collect_keys_twice (es : Entries) : Option (List String × List String) :=
  match collect_keys es [] with
  | none => none
  | some r1 =>
    match collect_keys es r1 with
    | none => none
    | some r2 => some (r1, r2)

/-- A segment of a well-formed template: literal text or a placeholder
token `[[name]]`. -/
inductive TItem where
  | lit (s : List Char)
  | ph (name : List Char)
deriving DecidableEq

/-- The template string denoted by a list of segments. -/
def renderT : List TItem → List Char
  | [] => []
  | TItem.lit s :: rest => s ++ renderT rest
  | TItem.ph n :: rest => phTok n ++ renderT rest

/-- Bracket hygiene for a piece of text: none of its characters is `[` or
`]`, so it can neither open, close, nor extend a placeholder token. -/
def brFree (l : List Char) : Bool :=
  l.all fun c => ¬ (c = '[' ∨ c = ']')

/-- A hygienic template segment: its text or name is bracket free. -/
def itemOk : TItem → Bool
  | TItem.lit s => brFree s
  | TItem.ph n => brFree n

/-- Hygiene of a whole segment list. -/
def itemsOk (its : List TItem) : Bool :=
  its.all itemOk

/-- Newline-free text: `.` in Python's regex cannot match a newline, so a
scannable placeholder name must satisfy this. -/
def nlFree (l : List Char) : Bool :=
  l.all fun c => ¬ (c = '\n')

/-- Scanner-specific hygiene of a segment: a placeholder name must be
newline free to be matched by the non-DOTALL regex (literal text may
contain newlines). -/
def itemNLOk : TItem → Bool
  | TItem.lit _ => true
  | TItem.ph n => nlFree n

/-- Scanner-specific hygiene of a whole segment list. -/
def itemsNLOk (its : List TItem) : Bool :=
  its.all itemNLOk

/-- First-match lookup keyed by character lists. -/
def lookupC (k : List Char) : List (List Char × List Char) → Option (List Char)
  | [] => none
  | kv :: rest => if kv.1 = k then some kv.2 else lookupC k rest

/-- The effect of one `str.replace` step of the substitution loop on a
template segment: the placeholder named `k` becomes the literal `v`. -/
def substKey (k v : List Char) : TItem → TItem
  | TItem.lit s => TItem.lit s
  | TItem.ph n => if n = k then TItem.lit v else TItem.ph n

/-- The simultaneous-substitution reading of the loop: placeholders whose
name is a key of the combination become their value, everything else is
untouched. -/
def substItem (comb : List (List Char × List Char)) : TItem → TItem
  | TItem.lit s => TItem.lit s
  | TItem.ph n =>
    match lookupC n comb with
    | some v => TItem.lit v
    | none => TItem.ph n

/-- Hygiene of a combination: all keys and values bracket free. -/
def combOk (comb : List (List Char × List Char)) : Bool :=
  comb.all fun kv => brFree kv.1 && brFree kv.2

/-- The placeholder names of a segment list, in order, duplicates kept. -/
def phNames : List TItem → List (List Char)
  | [] => []
  | TItem.lit _ :: rest => phNames rest
  | TItem.ph n :: rest => n :: phNames rest

/-- Embedding of the generate-button path of `automatic_news_generation_ui`
(app.py lines 215-323) as a function of its inputs: the configuration
template, the operator-edited template field, the known taxonomy keys, the
selections collected by `render_ui`, and the per-placeholder free-text
blocks.  The scanner runs on the configuration template (line 243), the
uncovered placeholders receive their newline-split alternatives (lines
253-257), and each expanded combination fills the configuration template
(lines 290-299).  The edited template field (`user_prompt_template`,
line 247) is read by the source but used nowhere in this path, so the
`_userTemplate` argument is ignored. -/
def autoGenPrompts (promptTemplate _userTemplate : List Char)
    (knownKeys : List String) (baseSelections : List (String × SelValue))
    (uncoveredText : String → String) : Option (List (List Char)) :=
  let uncovered := uncoveredPlaceholders promptTemplate knownKeys
  let sels := uncovered.foldl
    (fun d p => dictAssign d p (SelValue.list (splitNL (uncoveredText p)))) baseSelections
  (expandCombinations (fix_structure sels)).map fun combos =>
    combos.map fun c => fillTemplateS promptTemplate c

/-- Embedding of the generate-button path of `news_from_trends_ui`
(app.py lines 346-530) as a function of its inputs.  The generation
template is the configuration template selected by `based_on_real_news`
(lines 390-395, 501); the scanner runs on the operator-edited template
(line 401); uncovered placeholders receive their newline-split
alternatives (lines 405-409); the trends list is assigned to the
`SeedPhrase` axis (line 491); when news based, the combinations are
cross-joined with the retrieved articles (lines 489-497); each final
combination fills the configuration template (lines 500-503). -/
def newsGenPrompts (promptTemplateSeeded promptTemplateNews : List Char)
    (basedOnRealNews : Bool) (userTemplate : List Char) (knownKeys : List String)
    (baseSelections : List (String × SelValue)) (uncoveredText : String → String)
    (trendsList : List String) (articles : List Article) : Option (List (List Char)) :=
  let prompt_template := if basedOnRealNews then promptTemplateNews else promptTemplateSeeded
  let uncovered := uncoveredPlaceholders userTemplate knownKeys
  let sels := uncovered.foldl
    (fun d p => dictAssign d p (SelValue.list (splitNL (uncoveredText p)))) baseSelections
  let iter := dictAssign (fix_structure sels) "SeedPhrase" trendsList
  (expandCombinations iter).map fun combos =>
    let merged := if basedOnRealNews
      then mergeArticles combos (articles_to_placeholder articles)
      else combos
    merged.map fun c => fillTemplateS prompt_template c

theorem replaceGo_fuel (pat rep : List Char) :
    ∀ (n m : Nat) (s : List Char), s.length ≤ n → s.length ≤ m →
      replaceGo pat rep n s = replaceGo pat rep m s := by
  intro n
  induction n with
  | zero =>
    intro m s hn _
    have : s = [] := List.eq_nil_of_length_eq_zero (Nat.le_zero.mp hn)
    subst this
    cases m <;> rfl
  | succ n ih =>
    intro m s hn hm
    match s, m with
    | [], m => cases m <;> rfl
    | c :: s, 0 => exact absurd hm (by simp)
    | c :: s, m + 1 =>
      simp only [replaceGo]
      have hsn : s.length ≤ n := by simpa using hn
      have hsm : s.length ≤ m := by simpa using hm
      by_cases h : startsWithL pat (c :: s) = true
      · simp only [h, if_true]
        have hd : (s.drop (pat.length - 1)).length ≤ n := by
          rw [List.length_drop]; omega
        have hd' : (s.drop (pat.length - 1)).length ≤ m := by
          rw [List.length_drop]; omega
        rw [ih m (s.drop (pat.length - 1)) hd hd']
      · simp only [h, Bool.false_eq_true, if_false]
        rw [ih m s hsn hsm]

theorem replaceL_nil (pat rep : List Char) : replaceL pat rep [] = [] := rfl

theorem replaceL_cons (pat rep : List Char) (c : Char) (s : List Char) :
    replaceL pat rep (c :: s) =
      if startsWithL pat (c :: s) then rep ++ replaceL pat rep (s.drop (pat.length - 1))
      else c :: replaceL pat rep s := by
  show replaceGo pat rep (c :: s).length (c :: s) = _
  simp only [List.length_cons, replaceGo]
  by_cases h : startsWithL pat (c :: s) = true
  · simp only [h, if_true]
    have : (s.drop (pat.length - 1)).length ≤ s.length := by
      rw [List.length_drop]; omega
    rw [replaceGo_fuel pat rep s.length (s.drop (pat.length - 1)).length
      (s.drop (pat.length - 1)) this (Nat.le_refl _)]
    rfl
  · simp only [h, Bool.false_eq_true, if_false]
    rfl

theorem startsWithL_self_append (l r : List Char) : startsWithL l (l ++ r) = true := by
  induction l with
  | nil => rfl
  | cons c l ih => simp [startsWithL, ih]

theorem startsWithL_false_of_head_ne (p : List Char) (c : Char) (s : List Char)
    (h : c ≠ '[') : startsWithL ('[' :: p) (c :: s) = false := by
  have hc : ('[' = c) = False := eq_false fun h2 => h h2.symm
  simp [startsWithL, hc]

/-- Characters that are not `[` are copied unchanged by a replacement whose
pattern starts with `[`. -/
theorem replaceL_skip (p rep : List Char) :
    ∀ (l r : List Char), (∀ c ∈ l, c ≠ '[') →
      replaceL ('[' :: p) rep (l ++ r) = l ++ replaceL ('[' :: p) rep r := by
  intro l
  induction l with
  | nil => intro r _; rfl
  | cons c l ih =>
    intro r h
    rw [List.cons_append, replaceL_cons]
    have hc : c ≠ '[' := h c (List.mem_cons_self c l)
    rw [startsWithL_false_of_head_ne p c (l ++ r) hc]
    simp only [Bool.false_eq_true, if_false]
    rw [ih r fun x hx => h x (List.mem_cons_of_mem c hx)]
    rfl


theorem replaceL_pat_self (c : Char) (p rep R : List Char) :
    replaceL (c :: p) rep ((c :: p) ++ R) = rep ++ replaceL (c :: p) rep R := by
  rw [List.cons_append, replaceL_cons]
  have hsw : startsWithL (c :: p) (c :: (p ++ R)) = true := startsWithL_self_append (c :: p) R
  rw [hsw]
  simp only [if_true, List.length_cons, Nat.add_sub_cancel, List.drop_left]

theorem brFree_spec {l : List Char} (h : brFree l = true) :
    ∀ c ∈ l, c ≠ '[' ∧ c ≠ ']' := by
  intro c hc
  simp only [brFree, List.all_eq_true] at h
  have := h c hc
  simp only [decide_not, Bool.not_eq_true', decide_eq_false_iff_not] at this
  exact ⟨fun h1 => this (Or.inl h1), fun h2 => this (Or.inr h2)⟩

/-- Two distinct bracket-free names followed by their closing brackets can
never overlap: the pattern `k]]` is not a prefix of `n]]⋯` unless
`k = n`. -/
theorem startsWithL_names_ne :
    ∀ (k n r : List Char), brFree k = true → brFree n = true → k ≠ n →
      startsWithL (k ++ [']', ']']) (n ++ ']' :: ']' :: r) = false := by
  intro k
  induction k with
  | nil =>
    intro n r _ hn hne
    match n with
    | [] => exact absurd rfl hne
    | c :: n' =>
      have hc : c ≠ ']' := (brFree_spec hn c (List.mem_cons_self c n')).2
      have : (']' = c) = False := eq_false fun h2 => hc h2.symm
      simp [startsWithL, this]
  | cons a k' ih =>
    intro n r hk hn hne
    have ha := brFree_spec hk a (List.mem_cons_self a k')
    have hk' : brFree k' = true := by
      simp only [brFree, List.all_eq_true] at hk ⊢
      exact fun c hc => hk c (List.mem_cons_of_mem a hc)
    match n with
    | [] =>
      have : (a = ']') = False := eq_false ha.2
      simp [startsWithL, this]
    | b :: n' =>
      have hn' : brFree n' = true := by
        simp only [brFree, List.all_eq_true] at hn ⊢
        exact fun c hc => hn c (List.mem_cons_of_mem b hc)
      by_cases hab : a = b
      · subst hab
        have hne' : k' ≠ n' := fun h => hne (by rw [h])
        simp [startsWithL, ih n' r hk' hn' hne']
      · have : (a = b) = False := eq_false hab
        simp [startsWithL, this]

theorem startsWithL_open_in_name (q n R : List Char) (hn : brFree n = true) :
    startsWithL ('[' :: q) (n ++ ']' :: ']' :: R) = false := by
  match n with
  | [] => simp [startsWithL]
  | c :: n' =>
    have hc : c ≠ '[' := (brFree_spec hn c (List.mem_cons_self c n')).1
    exact startsWithL_false_of_head_ne q c (n' ++ ']' :: ']' :: R) hc

/-- Replacing the token of key `k` leaves the token of a different
bracket-free name `n` untouched and continues past it. -/
theorem replaceL_ph_other (k n v R : List Char) (hk : brFree k = true)
    (hn : brFree n = true) (hne : n ≠ k) :
    replaceL (phTok k) v (phTok n ++ R) = phTok n ++ replaceL (phTok k) v R := by
  have hshape : phTok n ++ R = '[' :: '[' :: (n ++ ']' :: ']' :: R) := by
    simp [phTok]
  rw [hshape, replaceL_cons]
  have h1 : startsWithL (phTok k) ('[' :: '[' :: (n ++ ']' :: ']' :: R)) = false := by
    have := startsWithL_names_ne k n R hk hn (fun h => hne h.symm)
    simp only [phTok, startsWithL, List.append_assoc, List.cons_append, List.nil_append]
    simp [this]
  rw [h1]
  simp only [Bool.false_eq_true, if_false]
  rw [replaceL_cons]
  have h2 : startsWithL (phTok k) ('[' :: (n ++ ']' :: ']' :: R)) = false := by
    have := startsWithL_open_in_name (k ++ [']', ']']) n R hn
    simp only [phTok, startsWithL]
    simp [this]
  rw [h2]
  simp only [Bool.false_eq_true, if_false]
  have h3 : replaceL (phTok k) v (n ++ ']' :: ']' :: R) =
      (n ++ [']', ']']) ++ replaceL (phTok k) v R := by
    have hnofl : ∀ c ∈ n ++ [']', ']'], c ≠ '[' := by
      intro c hc
      rcases List.mem_append.mp hc with h | h
      · exact (brFree_spec hn c h).1
      · have hc2 : c = ']' := by simpa using h
        subst hc2; decide
    have := replaceL_skip ('[' :: (k ++ [']', ']'])) v (n ++ [']', ']']) R hnofl
    simpa [phTok, List.append_assoc] using this
  rw [h3]
  simp [phTok, List.append_assoc]

theorem replaceL_lit_skip (k v s R : List Char) (hs : ∀ c ∈ s, c ≠ '[') :
    replaceL (phTok k) v (s ++ R) = s ++ replaceL (phTok k) v R :=
  replaceL_skip ('[' :: (k ++ [']', ']'])) v s R hs

theorem replaceL_tok_self (k v R : List Char) :
    replaceL (phTok k) v (phTok k ++ R) = v ++ replaceL (phTok k) v R :=
  replaceL_pat_self '[' ('[' :: (k ++ [']', ']'])) v R

/-- One `str.replace` step on a hygienic rendered template acts segmentwise:
the placeholders named `k` become the literal `v`, nothing else changes. -/
theorem replaceL_render (k v : List Char) (hk : brFree k = true) :
    ∀ its, itemsOk its = true →
      replaceL (phTok k) v (renderT its) = renderT (its.map (substKey k v)) := by
  intro its
  induction its with
  | nil => intro _; rfl
  | cons it rest ih =>
    intro h
    have hit : itemOk it = true := by
      simp only [itemsOk, List.all_cons, Bool.and_eq_true] at h; exact h.1
    have hrest : itemsOk rest = true := by
      simp only [itemsOk, List.all_cons, Bool.and_eq_true] at h; exact h.2
    match it with
    | TItem.lit s =>
      have hs : ∀ c ∈ s, c ≠ '[' := fun c hc => (brFree_spec hit c hc).1
      show replaceL (phTok k) v (s ++ renderT rest) = _
      rw [replaceL_lit_skip k v s (renderT rest) hs, ih hrest]
      rfl
    | TItem.ph n =>
      by_cases hn : n = k
      · subst hn
        show replaceL (phTok n) v (phTok n ++ renderT rest) = _
        rw [replaceL_tok_self n v (renderT rest), ih hrest]
        simp [substKey, renderT]
      · have hbn : brFree n = true := hit
        show replaceL (phTok k) v (phTok n ++ renderT rest) = _
        rw [replaceL_ph_other k n v (renderT rest) hk hbn hn, ih hrest]
        simp [substKey, hn, renderT]

theorem itemsOk_map_substKey {its : List TItem} (h : itemsOk its = true)
    {v : List Char} (hv : brFree v = true) (k : List Char) :
    itemsOk (its.map (substKey k v)) = true := by
  simp only [itemsOk, List.all_eq_true] at h ⊢
  intro it hit
  rcases List.mem_map.mp hit with ⟨it0, hit0, rfl⟩
  have h0 := h it0 hit0
  match it0 with
  | TItem.lit s => exact h0
  | TItem.ph n =>
    by_cases hn : n = k
    · simp [substKey, hn, itemOk, hv]
    · simp [substKey, hn]; exact h0

theorem substItem_substKey (comb : List (List Char × List Char)) (k v : List Char)
    (it : TItem) :
    substItem comb (substKey k v it) = substItem ((k, v) :: comb) it := by
  match it with
  | TItem.lit s => rfl
  | TItem.ph n =>
    by_cases hn : n = k
    · simp [substKey, substItem, lookupC, hn]
    · have hkn : (k = n) = False := eq_false fun h => hn h.symm
      simp [substKey, substItem, lookupC, hn, hkn]

theorem map_substItem_nil : ∀ its : List TItem, its.map (substItem []) = its := by
  intro its
  induction its with
  | nil => rfl
  | cons it rest ih =>
    cases it <;> simp_all [substItem, lookupC]

/-- The substitution loop on a hygienic rendered template equals
simultaneous substitution: every placeholder whose name is a key of the
combination becomes that key's value (the first entry for duplicate keys),
all other segments are untouched. -/
theorem fillTemplate_render :
    ∀ (comb : List (List Char × List Char)) (its : List TItem),
      itemsOk its = true → combOk comb = true →
      fillTemplate (renderT its) comb = renderT (its.map (substItem comb)) := by
  intro comb
  induction comb with
  | nil =>
    intro its _ _
    rw [map_substItem_nil its]
    rfl
  | cons kv comb' ih =>
    intro its h1 h2
    have hk : brFree kv.1 = true := by
      simp only [combOk, List.all_cons, Bool.and_eq_true] at h2; exact h2.1.1
    have hv : brFree kv.2 = true := by
      simp only [combOk, List.all_cons, Bool.and_eq_true] at h2; exact h2.1.2
    have h2' : combOk comb' = true := by
      simp only [combOk, List.all_cons, Bool.and_eq_true] at h2; exact h2.2
    show fillTemplate (replaceL (phTok kv.1) kv.2 (renderT its)) comb' = _
    rw [replaceL_render kv.1 kv.2 hk its h1]
    rw [ih (its.map (substKey kv.1 kv.2)) (itemsOk_map_substKey h1 hv kv.1) h2']
    rw [List.map_map]
    have : (substItem comb' ∘ substKey kv.1 kv.2) = substItem (kv :: comb') := by
      funext it
      show substItem comb' (substKey kv.1 kv.2 it) = _
      rw [substItem_substKey comb' kv.1 kv.2 it]
    rw [this]

/-- C2: for templates made of bracket-free literal text and placeholder
tokens, and combinations whose keys and values are bracket free, the
substitution loop replaces every occurrence of `[[Key]]` by the
combination's value for `Key` (duplicate occurrences identically, keys
absent from the template a no-op) and leaves all other text unchanged —
i.e. it equals simultaneous substitution of the combination into the
template segments. -/
theorem claim_c2_substitution (its : List TItem) (comb : List (List Char × List Char))
    (h1 : itemsOk its = true) (h2 : combOk comb = true) :
    fillTemplate (renderT its) comb = renderT (its.map (substItem comb)) :=
  fillTemplate_render comb its h1 h2

/-- C2 witness: the spec's own example, `"[[X]] met [[Y]] in [[X]]"` with
`{X: "Alice", Y: "Bob"}` yields `"Alice met Bob in Alice"`. -/
theorem claim_c2_substitution_witness :
    itemsOk [TItem.ph "X".data, TItem.lit " met ".data, TItem.ph "Y".data,
      TItem.lit " in ".data, TItem.ph "X".data] = true ∧
    combOk [("X".data, "Alice".data), ("Y".data, "Bob".data)] = true ∧
    fillTemplate
      (renderT [TItem.ph "X".data, TItem.lit " met ".data, TItem.ph "Y".data,
        TItem.lit " in ".data, TItem.ph "X".data])
      [("X".data, "Alice".data), ("Y".data, "Bob".data)] =
      renderT ([TItem.ph "X".data, TItem.lit " met ".data, TItem.ph "Y".data,
        TItem.lit " in ".data, TItem.ph "X".data].map
          (substItem [("X".data, "Alice".data), ("Y".data, "Bob".data)])) ∧
    renderT [TItem.ph "X".data, TItem.lit " met ".data, TItem.ph "Y".data,
      TItem.lit " in ".data, TItem.ph "X".data] = "[[X]] met [[Y]] in [[X]]".data ∧
    fillTemplateS "[[X]] met [[Y]] in [[X]]".data [("X", "Alice"), ("Y", "Bob")] =
      "Alice met Bob in Alice".data :=
  ⟨by decide, by decide,
   claim_c2_substitution _ _ (by decide) (by decide), by decide, by decide⟩

/-- C2 counterexample: with template `"[[X]]"` and combination
`{X: "[[Y]]", Y: "Bob"}`, the loop produces `"Bob"`: the value substituted
for `X` is itself rewritten by the later `str.replace` step, so the output
is not the template with each `[[Key]]` replaced by its value (which would
be `"[[Y]]"`). -/
theorem claim_c2_counterexample :
    fillTemplateS "[[X]]".data [("X", "[[Y]]"), ("Y", "Bob")] = "Bob".data ∧
    renderT ([TItem.ph "X".data].map
      (substItem [("X".data, "[[Y]]".data), ("Y".data, "Bob".data)])) = "[[Y]]".data ∧
    "Bob".data ≠ "[[Y]]".data := by
  refine ⟨by decide, by decide, by decide⟩

theorem scanAux_out0_skip (l r : List Char) (hl : ∀ c ∈ l, c ≠ '[') :
    scanAux ScanState.out0 (l ++ r) = scanAux ScanState.out0 r := by
  induction l with
  | nil => rfl
  | cons c l ih =>
    have hc : ¬ (c = '[') := hl c (List.mem_cons_self c l)
    show scanAux ScanState.out0 (c :: (l ++ r)) = _
    simp only [scanAux]
    rw [if_neg hc]
    exact ih fun x hx => hl x (List.mem_cons_of_mem c hx)

theorem nlFree_spec {l : List Char} (h : nlFree l = true) :
    ∀ c ∈ l, c ≠ '\n' := by
  intro c hc
  simp only [nlFree, List.all_eq_true] at h
  have := h c hc
  simpa using this

theorem scanAux_ins_name (n : List Char) (hn : ∀ c ∈ n, c ≠ ']' ∧ c ≠ '\n') :
    ∀ (acc : List Char) (r : List Char),
      scanAux (ScanState.ins acc) (n ++ r) = scanAux (ScanState.ins (acc ++ n)) r := by
  induction n with
  | nil => intro acc r; simp
  | cons c n' ih =>
    intro acc r
    have hc : ¬ (c = ']') := (hn c (List.mem_cons_self c n')).1
    have hcn : ¬ (c = '\n') := (hn c (List.mem_cons_self c n')).2
    show scanAux (ScanState.ins acc) (c :: (n' ++ r)) = _
    simp only [scanAux]
    rw [if_neg hc, if_neg hcn]
    rw [ih (fun x hx => hn x (List.mem_cons_of_mem c hx)) (acc ++ [c]) r]
    rw [List.append_cons acc c n']

/-- The scanner on a hygienic rendered template whose placeholder names
are newline free yields exactly the template's placeholder names, in
order, duplicates preserved. -/
theorem scan_render : ∀ its, itemsOk its = true → itemsNLOk its = true →
    scanPlaceholders (renderT its) = phNames its := by
  intro its
  induction its with
  | nil => intro _ _; rfl
  | cons it rest ih =>
    intro h hnl
    have hit : itemOk it = true := by
      simp only [itemsOk, List.all_cons, Bool.and_eq_true] at h; exact h.1
    have hrest : itemsOk rest = true := by
      simp only [itemsOk, List.all_cons, Bool.and_eq_true] at h; exact h.2
    have hitn : itemNLOk it = true := by
      simp only [itemsNLOk, List.all_cons, Bool.and_eq_true] at hnl; exact hnl.1
    have hrestn : itemsNLOk rest = true := by
      simp only [itemsNLOk, List.all_cons, Bool.and_eq_true] at hnl; exact hnl.2
    match it with
    | TItem.lit s =>
      show scanAux ScanState.out0 (s ++ renderT rest) = phNames rest
      rw [scanAux_out0_skip s (renderT rest) fun c hc => (brFree_spec hit c hc).1]
      exact ih hrest hrestn
    | TItem.ph n =>
      show scanAux ScanState.out0 (phTok n ++ renderT rest) = n :: phNames rest
      have hshape : phTok n ++ renderT rest =
          '[' :: '[' :: (n ++ (']' :: ']' :: renderT rest)) := by
        simp [phTok]
      rw [hshape]
      rw [show scanAux ScanState.out0 ('[' :: '[' :: (n ++ (']' :: ']' :: renderT rest))) =
        scanAux (ScanState.ins []) (n ++ (']' :: ']' :: renderT rest)) from by simp [scanAux]]
      rw [scanAux_ins_name n
        (fun c hc => ⟨(brFree_spec hit c hc).2, nlFree_spec hitn c hc⟩)
        [] (']' :: ']' :: renderT rest)]
      rw [List.nil_append]
      rw [show scanAux (ScanState.ins n) (']' :: ']' :: renderT rest) =
        n :: scanAux ScanState.out0 (renderT rest) from by simp [scanAux]]
      exact congrArg (fun x => n :: x) (ih hrest hrestn)

/-- C6: on a template of bracket-free literals and placeholder tokens
with newline-free names (the non-DOTALL regex `.` cannot match a newline)
the Placeholder Scanner returns the ordered, duplicate-preserving sequence
of names between `[[` and `]]` (non-greedy, case-sensitive `String`
equality), and the unknown-placeholder computation is the order-preserving
filter of that sequence by non-membership in the known keys: it is a
sublist of the scanned names containing exactly the scanned names not in
the known set. -/
theorem claim_c6_scanner (its : List TItem) (known : List String)
    (h : itemsOk its = true) (hn : itemsNLOk its = true) :
    scanPlaceholders (renderT its) = phNames its ∧
    uncoveredPlaceholders (renderT its) known =
      ((phNames its).map fun n => String.mk n).filter (fun p => ¬ p ∈ known) ∧
    (∀ x, x ∈ uncoveredPlaceholders (renderT its) known ↔
      (x ∈ (scanPlaceholders (renderT its)).map (fun n => String.mk n) ∧ ¬ x ∈ known)) ∧
    List.Sublist (uncoveredPlaceholders (renderT its) known)
      ((scanPlaceholders (renderT its)).map fun n => String.mk n) := by
  have hs := scan_render its h hn
  refine ⟨hs, ?_, ?_, ?_⟩
  · rw [uncoveredPlaceholders, hs]
  · intro x
    rw [uncoveredPlaceholders]
    simp [List.mem_filter]
  · rw [uncoveredPlaceholders]
    exact List.filter_sublist _

/-- C6 witness: with known placeholders `{Style, Tone}` and template
`"[[Style]] and [[Topic]]"`, the scanner finds `[Style, Topic]` and
reports `Topic` as the sole unknown. -/
theorem claim_c6_scanner_witness :
    itemsOk [TItem.ph "Style".data, TItem.lit " and ".data, TItem.ph "Topic".data] = true ∧
    itemsNLOk [TItem.ph "Style".data, TItem.lit " and ".data, TItem.ph "Topic".data] = true ∧
    (scanPlaceholders
      (renderT [TItem.ph "Style".data, TItem.lit " and ".data, TItem.ph "Topic".data]) =
        phNames [TItem.ph "Style".data, TItem.lit " and ".data, TItem.ph "Topic".data] ∧
     uncoveredPlaceholders
      (renderT [TItem.ph "Style".data, TItem.lit " and ".data, TItem.ph "Topic".data])
        ["Style", "Tone"] =
      ((phNames [TItem.ph "Style".data, TItem.lit " and ".data,
        TItem.ph "Topic".data]).map fun n => String.mk n).filter
          (fun p => ¬ p ∈ (["Style", "Tone"] : List String)) ∧
     (∀ x, x ∈ uncoveredPlaceholders
        (renderT [TItem.ph "Style".data, TItem.lit " and ".data, TItem.ph "Topic".data])
        ["Style", "Tone"] ↔
      (x ∈ (scanPlaceholders (renderT [TItem.ph "Style".data, TItem.lit " and ".data,
        TItem.ph "Topic".data])).map (fun n => String.mk n) ∧
        ¬ x ∈ (["Style", "Tone"] : List String))) ∧
     List.Sublist (uncoveredPlaceholders
        (renderT [TItem.ph "Style".data, TItem.lit " and ".data, TItem.ph "Topic".data])
        ["Style", "Tone"])
      ((scanPlaceholders (renderT [TItem.ph "Style".data, TItem.lit " and ".data,
        TItem.ph "Topic".data])).map fun n => String.mk n)) ∧
    renderT [TItem.ph "Style".data, TItem.lit " and ".data, TItem.ph "Topic".data] =
      "[[Style]] and [[Topic]]".data ∧
    uncoveredPlaceholders "[[Style]] and [[Topic]]".data ["Style", "Tone"] = ["Topic"] :=
  ⟨by decide, by decide, claim_c6_scanner _ _ (by decide) (by decide), by decide, by decide⟩

theorem hasSub_append_right (a b tok : List Char) (h : hasSub b tok = true) :
    hasSub (a ++ b) tok = true := by
  induction a with
  | nil => exact h
  | cons c a ih =>
    rw [List.cons_append]
    show (startsWithL tok (c :: (a ++ b)) || hasSub (a ++ b) tok) = true
    rw [ih]
    simp

theorem hasSub_self_append (tok r : List Char) : hasSub (tok ++ r) tok = true := by
  unfold hasSub
  rw [startsWithL_self_append tok r]
  exact Bool.true_or _

theorem hasSub_renderT_ph (Z : List Char) :
    ∀ its, TItem.ph Z ∈ its → hasSub (renderT its) (phTok Z) = true := by
  intro its
  induction its with
  | nil => intro h; exact absurd h (List.not_mem_nil _)
  | cons it rest ih =>
    intro h
    rcases List.mem_cons.mp h with heq | hmem
    · rw [← heq]
      exact hasSub_self_append (phTok Z) (renderT rest)
    · match it with
      | TItem.lit s => exact hasSub_append_right s (renderT rest) (phTok Z) (ih hmem)
      | TItem.ph n => exact hasSub_append_right (phTok n) (renderT rest) (phTok Z) (ih hmem)

/-- C5: on a template of bracket-free literals and placeholder tokens, and
a combination whose keys and values are bracket free, a placeholder token
`[[Z]]` whose name is not a key of the combination still occurs verbatim
in the substituted output (a missing key is not an error). -/
theorem claim_c5_passthrough (its : List TItem) (comb : List (List Char × List Char))
    (Z : List Char) (h1 : itemsOk its = true) (h2 : combOk comb = true)
    (h3 : TItem.ph Z ∈ its) (h4 : lookupC Z comb = none) :
    hasSub (fillTemplate (renderT its) comb) (phTok Z) = true := by
  rw [fillTemplate_render comb its h1 h2]
  apply hasSub_renderT_ph
  have heq : substItem comb (TItem.ph Z) = TItem.ph Z := by simp [substItem, h4]
  exact heq ▸ List.mem_map_of_mem (substItem comb) h3

/-- C5 witness: template `"x [[Z]]"` with combination `{X: "v"}` keeps
`[[Z]]` verbatim in the output. -/
theorem claim_c5_passthrough_witness :
    itemsOk [TItem.lit "x ".data, TItem.ph "Z".data] = true ∧
    combOk [("X".data, "v".data)] = true ∧
    TItem.ph "Z".data ∈ [TItem.lit "x ".data, TItem.ph "Z".data] ∧
    lookupC "Z".data [("X".data, "v".data)] = none ∧
    hasSub (fillTemplate (renderT [TItem.lit "x ".data, TItem.ph "Z".data])
      [("X".data, "v".data)]) (phTok "Z".data) = true ∧
    fillTemplateS "x [[Z]]".data [("X", "v")] = "x [[Z]]".data :=
  ⟨by decide, by decide, by decide, by decide,
   claim_c5_passthrough _ _ _ (by decide) (by decide) (by decide) (by decide), by decide⟩

/-- C5 counterexample: in the template `"[[a[[K]]"` the scanner finds the
single placeholder name `a[[K`; with the combination `{K: "v"}` (whose
sole key is `K`, so the scanned name is not a key) the loop rewrites the
template to `"[[av"`: the unresolved token is destroyed, not left
verbatim. -/
theorem claim_c5_counterexample :
    scanPlaceholders "[[a[[K]]".data = ["a[[K".data] ∧
    ¬ "a[[K" ∈ (["K"] : List String) ∧
    fillTemplateS "[[a[[K]]".data [("K", "v")] = "[[av".data ∧
    hasSub (fillTemplateS "[[a[[K]]".data [("K", "v")]) (phTok "a[[K".data) = false := by
  refine ⟨by decide, by decide, by decide, by decide⟩

theorem length_listProd {α : Type} :
    ∀ ls : List (List α), (listProd ls).length = (ls.map List.length).prod := by
  intro ls
  induction ls with
  | nil => rfl
  | cons l ls ih =>
    simp only [listProd, List.length_flatMap, List.map_cons, List.prod_cons]
    have h1 : (List.map (List.length ∘ fun x => (listProd ls).map fun t => x :: t) l) =
        List.replicate l.length (listProd ls).length := by
      simp [Function.comp_def, List.length_map]
    rw [h1, List.sum_replicate, smul_eq_mul, ih]

theorem mem_listProd {α : Type} :
    ∀ (ls : List (List α)) (c : List α),
      c ∈ listProd ls ↔ List.Forall₂ (fun x l => x ∈ l) c ls := by
  intro ls
  induction ls with
  | nil =>
    intro c
    simp [listProd, List.forall₂_nil_right_iff]
  | cons l ls ih =>
    intro c
    simp only [listProd, List.mem_flatMap, List.mem_map, List.forall₂_cons_right_iff]
    constructor
    · rintro ⟨x, hx, t, ht, rfl⟩
      exact ⟨x, t, hx, (ih t).mp ht, rfl⟩
    · rintro ⟨x, t, hx, ht, rfl⟩
      exact ⟨x, hx, t, (ih t).mpr ht, rfl⟩

theorem nodup_listProd {α : Type} :
    ∀ ls : List (List α), (∀ l ∈ ls, l.Nodup) → (listProd ls).Nodup := by
  intro ls
  induction ls with
  | nil => intro _; simp [listProd]
  | cons l ls ih =>
    intro h
    have hl : l.Nodup := h l (List.mem_cons_self l ls)
    have hls : ∀ l' ∈ ls, l'.Nodup := fun l' hl' => h l' (List.mem_cons_of_mem l hl')
    simp only [listProd]
    rw [List.nodup_flatMap]
    constructor
    · intro x _
      exact (List.nodup_map_iff fun a b hab => by simpa using hab).mpr (ih hls)
    · refine hl.imp ?_
      intro a b hab
      intro t hta htb
      simp only [List.mem_map] at hta htb
      rcases hta with ⟨t1, _, rfl⟩
      rcases htb with ⟨t2, _, h2⟩
      exact absurd (List.cons.inj h2.symm).1 hab

/-- C1: for every nonempty normalized Selection Set, the Combination
Expander returns exactly the Cartesian product of the value lists: the
count is the product of the list lengths, each combination lists the keys
in the mapping's iteration order and assigns each key a member of its
list, every such assignment occurs (no omissions), and when each value
list is duplicate free there are no duplicate combinations. -/
theorem claim_c1_expander (sel : List (String × List String)) (h : sel ≠ []) :
    ∃ combs, expandCombinations sel = some combs ∧
      combs.length = (sel.map fun kv => kv.2.length).prod ∧
      (∀ c ∈ combs, c.map Prod.fst = sel.map fun kv => kv.1) ∧
      (∀ c ∈ combs, List.Forall₂ (fun p kv => p.1 = kv.1 ∧ p.2 ∈ kv.2) c sel) ∧
      (∀ vs : List String, List.Forall₂ (fun x kv => x ∈ kv.2) vs sel →
        (sel.map fun kv => kv.1).zip vs ∈ combs) ∧
      ((∀ kv ∈ sel, kv.2.Nodup) → combs.Nodup) := by
  have hexp : expandCombinations sel =
      some ((listProd (sel.map fun kv => kv.2)).map fun vs =>
        List.zip (sel.map fun kv => kv.1) vs) := by
    match sel, h with
    | kv :: rest, _ => rfl
  refine ⟨_, hexp, ?_, ?_, ?_, ?_, ?_⟩
  · rw [List.length_map, length_listProd, List.map_map]
    rfl
  · intro c hc
    rcases List.mem_map.mp hc with ⟨vs, hvs, rfl⟩
    have hlen : vs.length = sel.length := by
      have := ((mem_listProd _ vs).mp hvs).length_eq
      simpa using this
    rw [List.map_fst_zip]
    rw [List.length_map, hlen]
  · intro c hc
    rcases List.mem_map.mp hc with ⟨vs, hvs, rfl⟩
    have hmem := (mem_listProd _ vs).mp hvs
    have hlen : vs.length = sel.length := by simpa using hmem.length_eq
    rw [List.forall₂_iff_get] at hmem ⊢
    obtain ⟨_, hget⟩ := hmem
    constructor
    · simp [List.length_zip, hlen]
    · intro i h1 h2
      have hi : i < sel.length := h2
      have hiv : i < vs.length := by omega
      have hik : i < (sel.map fun kv => kv.1).length := by simpa using hi
      have hz := @List.getElem_zip _ _ (sel.map fun kv => kv.1) vs i (by simpa using h1)
      simp only [List.get_eq_getElem]
      rw [hz]
      constructor
      · simp
      · have := hget i hiv (by simpa using hi)
        simpa using this
  · intro vs hvs
    apply List.mem_map_of_mem
    rw [mem_listProd]
    rw [List.forall₂_map_right_iff]
    exact hvs
  · intro hnd
    apply List.Nodup.map_on
    · intro x hx y hy hxy
      have hlx : x.length = sel.length := by
        simpa using ((mem_listProd _ x).mp hx).length_eq
      have hly : y.length = sel.length := by
        simpa using ((mem_listProd _ y).mp hy).length_eq
      have hx' : x = ((sel.map fun kv => kv.1).zip x).map Prod.snd := by
        rw [List.map_snd_zip]
        simp [hlx]
      have hy' : y = ((sel.map fun kv => kv.1).zip y).map Prod.snd := by
        rw [List.map_snd_zip]
        simp [hly]
      rw [hx', hy', hxy]
    · apply nodup_listProd
      intro l hl
      rcases List.mem_map.mp hl with ⟨kv, hkv, rfl⟩
      exact hnd kv hkv

/-- C1 witness: the spec's example `{A: [a1, a2], B: [b1]}` yields exactly
the two combinations `{A: a1, B: b1}`, `{A: a2, B: b1}`. -/
theorem claim_c1_expander_witness :
    ([("A", ["a1", "a2"]), ("B", ["b1"])] : List (String × List String)) ≠ [] ∧
    (∃ combs, expandCombinations [("A", ["a1", "a2"]), ("B", ["b1"])] = some combs ∧
      combs.length =
        (([("A", ["a1", "a2"]), ("B", ["b1"])] : List (String × List String)).map
          fun kv => kv.2.length).prod ∧
      (∀ c ∈ combs, c.map Prod.fst =
        ([("A", ["a1", "a2"]), ("B", ["b1"])] : List (String × List String)).map
          fun kv => kv.1) ∧
      (∀ c ∈ combs, List.Forall₂ (fun p kv => p.1 = kv.1 ∧ p.2 ∈ kv.2) c
        [("A", ["a1", "a2"]), ("B", ["b1"])]) ∧
      (∀ vs : List String, List.Forall₂ (fun x kv => x ∈ kv.2) vs
          [("A", ["a1", "a2"]), ("B", ["b1"])] →
        (([("A", ["a1", "a2"]), ("B", ["b1"])] : List (String × List String)).map
          (fun kv => kv.1)).zip vs ∈ combs) ∧
      ((∀ kv ∈ ([("A", ["a1", "a2"]), ("B", ["b1"])] : List (String × List String)),
        kv.2.Nodup) → combs.Nodup)) ∧
    expandCombinations [("A", ["a1", "a2"]), ("B", ["b1"])] =
      some [[("A", "a1"), ("B", "b1")], [("A", "a2"), ("B", "b1")]] :=
  ⟨by decide, claim_c1_expander _ (by decide), by decide⟩

/-- C1 counterexample: on the empty Selection Set the source raises
`ValueError` at `keys, values = zip(*iter_selections.items())` (embedded
as `none`), whereas the Cartesian product of no axes is the single empty
combination, so the claim fails for the empty mapping. -/
theorem claim_c1_counterexample :
    expandCombinations [] = none ∧
    listProd ([] : List (List String)) = [[]] ∧
    (listProd ([] : List (List String))).length = 1 :=
  ⟨rfl, rfl, rfl⟩

/-- C3 (code behavior at the failing input): with merging engaged and one
option combination but an empty retrieved-record list, the merger yields
the empty list — all option combinations are discarded instead of the
merge being skipped. -/
theorem claim_c3_code_behavior :
    mergeArticles [[("Style", "x")]] (articles_to_placeholder []) = [] ∧
    mergeArticles [[("Style", "x")]] [] = [] ∧
    ([[("Style", "x")]] : List (List (String × String))) ≠ [] :=
  ⟨rfl, rfl, by decide⟩

theorem lookupS_eq_none {α : Type} {k : String} {b : List (String × α)}
    (h : ∀ kv ∈ b, kv.1 ≠ k) : lookupS k b = none := by
  induction b with
  | nil => rfl
  | cons kv rest ih =>
    have hk : ¬ (kv.1 = k) := h kv (List.mem_cons_self kv rest)
    simp only [lookupS]
    rw [if_neg hk]
    exact ih fun x hx => h x (List.mem_cons_of_mem kv hx)

theorem dictUpdate_disjoint (c b : List (String × String))
    (h : ∀ kv ∈ c, ∀ kv2 ∈ b, kv.1 ≠ kv2.1) : dictUpdate c b = c ++ b := by
  unfold dictUpdate
  have h1 : (c.map fun kv =>
      match lookupS kv.1 b with
      | some v => (kv.1, v)
      | none => kv) = c := by
    have hcongr := List.map_congr_left (l := c)
      (f := fun kv =>
        match lookupS kv.1 b with
        | some v => (kv.1, v)
        | none => kv)
      (g := fun kv => kv)
      (by
        intro kv hkv
        have hnone : lookupS kv.1 b = none :=
          lookupS_eq_none fun kv2 hkv2 => (h kv hkv kv2 hkv2).symm
        show (match lookupS kv.1 b with
          | some v => (kv.1, v)
          | none => kv) = kv
        rw [hnone])
    rw [hcongr]
    simp
  have h2 : (b.filter fun kv => (lookupS kv.1 c).isNone) = b := by
    rw [List.filter_eq_self]
    intro kv2 hkv2
    have : lookupS kv2.1 c = none :=
      lookupS_eq_none fun kv hkv => h kv hkv kv2 hkv2
    rw [this]
    rfl
  rw [h1, h2]

theorem getElemQ_flatMap_const {α β : Type} (f : α → List β) (M : Nat)
    (hM : ∀ a, (f a).length = M) :
    ∀ (l : List α) (i j : Nat) (hi : i < l.length), j < M →
      (l.flatMap f)[i * M + j]? = (f (l.get ⟨i, hi⟩))[j]? := by
  intro l
  induction l with
  | nil => intro i j hi _; exact absurd hi (by simp)
  | cons a l ih =>
    intro i j hi hj
    match i with
    | 0 =>
      have h0 : 0 * M + j = j := by omega
      rw [List.flatMap_cons, h0]
      rw [List.getElem?_append_left (by rw [hM]; exact hj)]
      rfl
    | i + 1 =>
      rw [List.flatMap_cons]
      have hge : (f a).length ≤ (i + 1) * M + j := by
        rw [hM]
        have : M ≤ (i + 1) * M := by
          calc M = 1 * M := (Nat.one_mul M).symm
          _ ≤ (i + 1) * M := Nat.mul_le_mul_right M (by omega)
        omega
      rw [List.getElem?_append_right hge]
      have hidx : (i + 1) * M + j - (f a).length = i * M + j := by
        rw [hM]
        have : (i + 1) * M = i * M + M := by ring
        omega
      rw [hidx]
      exact ih i j (by simpa using hi) hj

theorem length_flatMap_const {α β : Type} (f : α → List β) (M : Nat)
    (hM : ∀ a, (f a).length = M) (l : List α) :
    (l.flatMap f).length = l.length * M := by
  rw [List.length_flatMap]
  have : List.map (List.length ∘ f) l = List.replicate l.length M := by
    have := List.map_congr_left (l := l) (f := List.length ∘ f) (g := fun _ => M)
      (by intro a _; exact hM a)
    rw [this]
    simp
  rw [this, List.sum_replicate, smul_eq_mul]

/-- C4: merging N option-combinations with M external records yields
exactly N×M merged mappings — the entry at position i·M + j is the i-th
combination extended by the three fixed keys `SourceArticleTitle`,
`SourceArticleDescription` and `SourceArticleUrl` carrying the j-th
record's fields, so every (combination, record) pair occurs exactly once,
in a deterministic order for a fixed input order (records vary faster). -/
theorem claim_c4_merger (combs : List (List (String × String))) (arts : List Article)
    (hdisj : ∀ c ∈ combs, ∀ kv ∈ c, kv.1 ≠ "SourceArticleTitle" ∧
      kv.1 ≠ "SourceArticleDescription" ∧ kv.1 ≠ "SourceArticleUrl") :
    (mergeArticles combs (articles_to_placeholder arts)).length =
      combs.length * arts.length ∧
    ∀ (i j : Nat) (hi : i < combs.length) (hj : j < arts.length),
      (mergeArticles combs (articles_to_placeholder arts))[i * arts.length + j]? =
        some (combs.get ⟨i, hi⟩ ++
          [("SourceArticleTitle", (arts.get ⟨j, hj⟩).title),
           ("SourceArticleDescription", (arts.get ⟨j, hj⟩).description),
           ("SourceArticleUrl", (arts.get ⟨j, hj⟩).url)]) := by
  have hM : ∀ c : List (String × String),
      ((articles_to_placeholder arts).map fun a => dictUpdate c a).length = arts.length := by
    intro c
    rw [List.length_map, articles_to_placeholder, List.length_map]
  have hmerge : mergeArticles combs (articles_to_placeholder arts) =
      combs.flatMap fun c => (articles_to_placeholder arts).map fun a => dictUpdate c a := rfl
  constructor
  · rw [hmerge, length_flatMap_const _ arts.length hM combs]
  · intro i j hi hj
    rw [hmerge, getElemQ_flatMap_const _ arts.length hM combs i j hi hj]
    rw [List.getElem?_map]
    rw [articles_to_placeholder, List.getElem?_map]
    rw [List.getElem?_eq_getElem (by simpa using hj)]
    have harts : arts[j] = arts.get ⟨j, hj⟩ := rfl
    rw [harts]
    have hdu := dictUpdate_disjoint (combs.get ⟨i, hi⟩)
      [("SourceArticleTitle", (arts.get ⟨j, hj⟩).title),
       ("SourceArticleDescription", (arts.get ⟨j, hj⟩).description),
       ("SourceArticleUrl", (arts.get ⟨j, hj⟩).url)]
      (by
        intro kv hkv kv2 hkv2
        have h3 := hdisj (combs.get ⟨i, hi⟩) (combs.get_mem i hi) kv hkv
        rcases List.mem_cons.mp hkv2 with rfl | hkv2
        · exact h3.1
        rcases List.mem_cons.mp hkv2 with rfl | hkv2
        · exact h3.2.1
        rcases List.mem_cons.mp hkv2 with rfl | hkv2
        · exact h3.2.2
        · exact absurd hkv2 (List.not_mem_nil kv2))
    exact congrArg some hdu

/-- C4 witness: 2 combinations × 3 external records yield exactly 6 merged
combinations. -/
theorem claim_c4_merger_witness :
    (∀ c ∈ ([[("A", "a1")], [("A", "a2")]] : List (List (String × String))),
      ∀ kv ∈ c, kv.1 ≠ "SourceArticleTitle" ∧
        kv.1 ≠ "SourceArticleDescription" ∧ kv.1 ≠ "SourceArticleUrl") ∧
    ((mergeArticles [[("A", "a1")], [("A", "a2")]] (articles_to_placeholder
        [⟨"t1", "d1", "u1"⟩, ⟨"t2", "d2", "u2"⟩, ⟨"t3", "d3", "u3"⟩])).length =
      ([[("A", "a1")], [("A", "a2")]] : List (List (String × String))).length *
        ([⟨"t1", "d1", "u1"⟩, ⟨"t2", "d2", "u2"⟩, ⟨"t3", "d3", "u3"⟩] : List Article).length ∧
     ∀ (i j : Nat) (hi : i < ([[("A", "a1")], [("A", "a2")]] :
          List (List (String × String))).length)
        (hj : j < ([⟨"t1", "d1", "u1"⟩, ⟨"t2", "d2", "u2"⟩, ⟨"t3", "d3", "u3"⟩] :
          List Article).length),
      (mergeArticles [[("A", "a1")], [("A", "a2")]] (articles_to_placeholder
        [⟨"t1", "d1", "u1"⟩, ⟨"t2", "d2", "u2"⟩, ⟨"t3", "d3", "u3"⟩]))[i *
          ([⟨"t1", "d1", "u1"⟩, ⟨"t2", "d2", "u2"⟩, ⟨"t3", "d3", "u3"⟩] :
            List Article).length + j]? =
        some (([[("A", "a1")], [("A", "a2")]] :
            List (List (String × String))).get ⟨i, hi⟩ ++
          [("SourceArticleTitle", (([⟨"t1", "d1", "u1"⟩, ⟨"t2", "d2", "u2"⟩,
              ⟨"t3", "d3", "u3"⟩] : List Article).get ⟨j, hj⟩).title),
           ("SourceArticleDescription", (([⟨"t1", "d1", "u1"⟩, ⟨"t2", "d2", "u2"⟩,
              ⟨"t3", "d3", "u3"⟩] : List Article).get ⟨j, hj⟩).description),
           ("SourceArticleUrl", (([⟨"t1", "d1", "u1"⟩, ⟨"t2", "d2", "u2"⟩,
              ⟨"t3", "d3", "u3"⟩] : List Article).get ⟨j, hj⟩).url)])) ∧
    (mergeArticles [[("A", "a1")], [("A", "a2")]] (articles_to_placeholder
      [⟨"t1", "d1", "u1"⟩, ⟨"t2", "d2", "u2"⟩, ⟨"t3", "d3", "u3"⟩])).length = 6 :=
  ⟨by decide, claim_c4_merger _ _ (by decide), by decide⟩

theorem fix_structure_eq_map (sel : List (String × SelValue)) :
    fix_structure sel = sel.map fun kv => (kv.1, selToList kv.2) := by
  induction sel with
  | nil => rfl
  | cons kv rest ih =>
    match kv with
    | (k, SelValue.str s) => simp [fix_structure, selToList, ih]
    | (k, SelValue.list l) => simp [fix_structure, selToList, ih]

/-- C7: the Selection Normalizer keeps every key in place (same keys, same
order, same length), passes list values through unchanged, turns scalars
into singleton lists, is total, and is idempotent: re-normalizing its
output (re-read as list-valued selections) returns the output
unchanged. -/
theorem claim_c7_normalizer (sel : List (String × SelValue)) :
    (fix_structure sel).length = sel.length ∧
    (fix_structure sel).map Prod.fst = sel.map Prod.fst ∧
    (∀ i : Nat, (fix_structure sel)[i]? =
      (sel[i]?).map fun kv => (kv.1, selToList kv.2)) ∧
    (∀ k l, (k, SelValue.list l) ∈ sel → (k, l) ∈ fix_structure sel) ∧
    (∀ k s, (k, SelValue.str s) ∈ sel → (k, [s]) ∈ fix_structure sel) ∧
    fix_structure ((fix_structure sel).map fun kv => (kv.1, SelValue.list kv.2)) =
      fix_structure sel := by
  refine ⟨?_, ?_, ?_, ?_, ?_, ?_⟩
  · rw [fix_structure_eq_map, List.length_map]
  · rw [fix_structure_eq_map, List.map_map]
    rfl
  · intro i
    rw [fix_structure_eq_map, List.getElem?_map]
  · intro k l hm
    rw [fix_structure_eq_map]
    exact List.mem_map_of_mem _ hm
  · intro k s hm
    rw [fix_structure_eq_map]
    exact List.mem_map_of_mem _ hm
  · rw [fix_structure_eq_map, fix_structure_eq_map, List.map_map, List.map_map]
    rfl

mutual
theorem collect_keys_append : ∀ (es : Entries) (acc : List String),
    collect_keys es acc = (collect_keys es []).map fun l => acc ++ l
  | Entries.enil, acc => by simp [collect_keys]
  | Entries.econs k (Node.vlist vs) rest, acc => by
    simp only [collect_keys, List.nil_append]
    rw [collect_keys_append rest (acc ++ [k]), collect_keys_append rest [k]]
    rcases collect_keys rest [] with _ | m
    · rfl
    · simp
  | Entries.econs k (Node.vdict es2) rest, acc => by
    simp only [collect_keys, List.nil_append]
    rw [collect_subs_append es2 (acc ++ [k]), collect_subs_append es2 [k]]
    rcases hs : collect_subs es2 [] with _ | l
    · rfl
    · show collect_keys rest (acc ++ [k] ++ l) =
        Option.map (fun x => acc ++ x) (collect_keys rest ([k] ++ l))
      rw [collect_keys_append rest (acc ++ [k] ++ l), collect_keys_append rest ([k] ++ l)]
      rcases collect_keys rest [] with _ | m
      · rfl
      · simp
theorem collect_subs_append : ∀ (es : Entries) (acc : List String),
    collect_subs es acc = (collect_subs es []).map fun l => acc ++ l
  | Entries.enil, acc => by simp [collect_subs]
  | Entries.econs k (Node.vlist vs) rest, acc => by
    show (none : Option (List String)) = _
    rfl
  | Entries.econs k (Node.vdict es2) rest, acc => by
    simp only [collect_subs]
    rw [collect_keys_append es2 acc]
    rcases hk : collect_keys es2 [] with _ | l
    · rfl
    · show collect_subs rest (acc ++ l) =
        Option.map (fun x => acc ++ x) (collect_subs rest l)
      rw [collect_subs_append rest (acc ++ l), collect_subs_append rest l]
      rcases collect_subs rest [] with _ | m
      · rfl
      · simp
end

/-- C9: two successive `collect_keys` calls that rely on the default
accumulator share state — the second call's result starts with (and here
doubles) the first call's keys, so the second run still contains the
first run's collected keys and the routine is not a pure function of its
explicit argument. -/
theorem claim_c9_shared_accumulator (es : Entries) (r1 r2 : List String)
    (h : collect_keys_twice es = some (r1, r2)) :
    collect_keys es [] = some r1 ∧ collect_keys es r1 = some r2 ∧
    r2 = r1 ++ r1 ∧ (r1 ≠ [] → r2 ≠ r1) := by
  rcases h1 : collect_keys es [] with _ | a
  · have hnone : collect_keys_twice es = none := by
      unfold collect_keys_twice
      rw [h1]
    rw [hnone] at h
    exact absurd h (by simp)
  · have h2 : collect_keys es a = some (a ++ a) := by
      rw [collect_keys_append es a, h1]
      rfl
    have hform : collect_keys_twice es = some (a, a ++ a) := by
      unfold collect_keys_twice
      rw [h1]
      simp [h2]
    rw [hform] at h
    have hp : a = r1 ∧ a ++ a = r2 := by simpa using h
    obtain ⟨rfl, rfl⟩ := hp
    refine ⟨rfl, h2, rfl, ?_⟩
    intro hne heq
    have hlen := congrArg List.length heq
    rw [List.length_append] at hlen
    exact hne (List.length_eq_zero.mp (by omega))

/-- C9 witness: on a two-level taxonomy collecting `[Cat, Sub]`, the
second default-relying call returns `[Cat, Sub, Cat, Sub]`. -/
theorem claim_c9_shared_accumulator_witness :
    collect_keys_twice (Entries.econs "Cat" (Node.vdict (Entries.econs "Var" (Node.vdict
      (Entries.econs "Sub" (Node.vlist ["x"]) Entries.enil)) Entries.enil)) Entries.enil) =
      some (["Cat", "Sub"], ["Cat", "Sub", "Cat", "Sub"]) ∧
    (collect_keys (Entries.econs "Cat" (Node.vdict (Entries.econs "Var" (Node.vdict
      (Entries.econs "Sub" (Node.vlist ["x"]) Entries.enil)) Entries.enil)) Entries.enil) [] =
        some ["Cat", "Sub"] ∧
     collect_keys (Entries.econs "Cat" (Node.vdict (Entries.econs "Var" (Node.vdict
      (Entries.econs "Sub" (Node.vlist ["x"]) Entries.enil)) Entries.enil)) Entries.enil)
        ["Cat", "Sub"] = some ["Cat", "Sub", "Cat", "Sub"] ∧
     (["Cat", "Sub", "Cat", "Sub"] : List String) = ["Cat", "Sub"] ++ ["Cat", "Sub"] ∧
     ((["Cat", "Sub"] : List String) ≠ [] →
       (["Cat", "Sub", "Cat", "Sub"] : List String) ≠ ["Cat", "Sub"])) :=
  ⟨by decide, claim_c9_shared_accumulator _ _ _ (by decide)⟩

theorem collect_keys_chain_step (n : Nat) (acc : List String) :
    collect_keys (chainEntries (n + 2)) acc =
      collect_keys (chainEntries n) (acc ++ ["K"]) := by
  show (match (match collect_keys (chainEntries n) (acc ++ ["K"]) with
      | none => none
      | some acc2 => some acc2) with
    | none => none
    | some acc2 => some acc2) = collect_keys (chainEntries n) (acc ++ ["K"])
  rcases collect_keys (chainEntries n) (acc ++ ["K"]) with _ | l <;> rfl

theorem collect_keys_chain_odd : ∀ (n : Nat) (acc : List String),
    collect_keys (chainEntries (2 * n + 3)) acc = none := by
  intro n
  induction n with
  | zero =>
    intro acc
    show collect_keys (chainEntries 3) acc = none
    rw [show (3 : Nat) = 1 + 2 from rfl, collect_keys_chain_step 1 acc]
    rfl
  | succ n ih =>
    intro acc
    have he : 2 * (n + 1) + 3 = (2 * n + 3) + 2 := by omega
    rw [he, collect_keys_chain_step (2 * n + 3) acc, ih]

theorem collect_keys_chain_even : ∀ (n : Nat) (acc : List String),
    collect_keys (chainEntries (2 * n)) acc =
      some (acc ++ List.replicate (n + 1) "K") := by
  intro n
  induction n with
  | zero =>
    intro acc
    rfl
  | succ n ih =>
    intro acc
    have he : 2 * (n + 1) = 2 * n + 2 := by omega
    rw [he, collect_keys_chain_step (2 * n) acc, ih (acc ++ ["K"])]
    have hra : (acc ++ ["K"]) ++ List.replicate (n + 1) "K" =
        acc ++ List.replicate (n + 1 + 1) "K" := by
      rw [List.append_assoc]
      rfl
    rw [hra]

theorem nodeDepth_nodeChain : ∀ m, nodeDepth (nodeChain m) = m := by
  intro m
  induction m with
  | zero => rfl
  | succ m ih =>
    simp [nodeChain, nodeDepth, entriesDepth, ih]
    omega

/-- C8 amended: deeper-than-two-level taxonomies do not uniformly fail
fast.  Chain taxonomies of odd dictionary depth 2n+3 (> 2) make
`collect_keys` raise an `AttributeError` (embedded `none`) before any
combination is computed, but chains of even depth 2n+4 (also > 2) are
traversed without any error, silently collecting keys from alternating
levels. -/
theorem claim_c8_reader_depth (n : Nat) :
    2 < nodeDepth (nodeChain (2 * n + 3)) ∧
    collect_keys (chainEntries (2 * n + 3)) [] = none ∧
    2 < nodeDepth (nodeChain (2 * n + 4)) ∧
    collect_keys (chainEntries (2 * n + 4)) [] = some (List.replicate (n + 3) "K") := by
  refine ⟨?_, collect_keys_chain_odd n [], ?_, ?_⟩
  · rw [nodeDepth_nodeChain]; omega
  · rw [nodeDepth_nodeChain]; omega
  · have he : 2 * n + 4 = 2 * (n + 2) := by omega
    rw [he, collect_keys_chain_even (n + 2) []]
    rfl

/-- C8 counterexample: `deepTaxonomy` nests two levels deeper than the
supported shape (depth 5 > 3 dictionaries, i.e. value depth 4 > 2), yet
`collect_keys` succeeds — silently collecting only alternating levels —
and the default rendering succeeds while silently ignoring every level
below the first, so no configuration error is surfaced. -/
theorem claim_c8_counterexample :
    2 < entriesDepth deepTaxonomy ∧
    entriesDepth deepTaxonomy = 4 ∧
    collect_keys deepTaxonomy [] = some ["Category", "SubCat", "DeepKey"] ∧
    render_ui_default deepTaxonomy = some [("Category", SelValue.str "Variant")] := by
  refine ⟨by decide, by decide, by decide, by decide⟩

/-- C10 amended: in both generation loops substitution is applied to the
configuration-selected template, never to the operator-edited one.  In
`automatic_news_generation_ui` the edited template is entirely unused, so
the filled-prompt sequence is identical for any two edited values; in
`news_from_trends_ui` the edited template is the one scanned for unknown
placeholders, so the sequence is guaranteed unchanged only when the two
edited templates scan to the same placeholder sequence. -/
theorem claim_c10_template_independence :
    (∀ (promptTemplate u1 u2 : List Char) (knownKeys : List String)
      (base : List (String × SelValue)) (txt : String → String),
      autoGenPrompts promptTemplate u1 knownKeys base txt =
        autoGenPrompts promptTemplate u2 knownKeys base txt) ∧
    (∀ (pts ptn : List Char) (b : Bool) (u1 u2 : List Char) (keys : List String)
      (base : List (String × SelValue)) (txt : String → String)
      (trends : List String) (arts : List Article),
      scanPlaceholders u1 = scanPlaceholders u2 →
      newsGenPrompts pts ptn b u1 keys base txt trends arts =
        newsGenPrompts pts ptn b u2 keys base txt trends arts) := by
  constructor
  · intro _ _ _ _ _ _
    rfl
  · intro pts ptn b u1 u2 keys base txt trends arts hscan
    simp only [newsGenPrompts, uncoveredPlaceholders]
    rw [hscan]

/-- C10 witness: concrete instances of both parts — the automatic
generator ignores the edited field, and the news generator is unchanged
across two edited templates that scan to the same placeholder list. -/
theorem claim_c10_template_independence_witness :
    autoGenPrompts "A [[X]]".data "edit1".data ["X"] [("X", SelValue.list ["v"])]
        (fun _ => "") =
      autoGenPrompts "A [[X]]".data "edit2".data ["X"] [("X", SelValue.list ["v"])]
        (fun _ => "") ∧
    (scanPlaceholders "x[[A]]".data = scanPlaceholders "[[A]]y".data ∧
     newsGenPrompts "S".data "N".data false "x[[A]]".data ["SeedPhrase"] []
        (fun _ => "") ["t"] [] =
      newsGenPrompts "S".data "N".data false "[[A]]y".data ["SeedPhrase"] []
        (fun _ => "") ["t"] []) :=
  ⟨claim_c10_template_independence.1 _ _ _ _ _ _,
   ⟨by decide,
    claim_c10_template_independence.2 _ _ _ _ _ _ _ _ _ _ (by decide)⟩⟩

/-- C10 counterexample: in `news_from_trends_ui`, editing the template
field changes the generated prompt sequence.  With the configuration
template `"A [[Topic]]"` and the free-text block `"dogs"` for `Topic`, the
edited field `"[[Topic]]"` makes `Topic` a scanned unknown placeholder and
each generated prompt is `"A dogs"`, while the edited field `""` leaves
`Topic` unscanned and the prompt is `"A [[Topic]]"` — so the sequence of
filled prompts is not independent of the edited template. -/
theorem claim_c10_counterexample :
    newsGenPrompts "A [[Topic]]".data "N".data false "[[Topic]]".data
      ["SeedPhrase", "SourceArticleTitle", "SourceArticleDescription", "SourceArticleUrl"]
      [] (fun p => if p = "Topic" then "dogs" else "") ["t"] [] =
        some ["A dogs".data] ∧
    newsGenPrompts "A [[Topic]]".data "N".data false "".data
      ["SeedPhrase", "SourceArticleTitle", "SourceArticleDescription", "SourceArticleUrl"]
      [] (fun p => if p = "Topic" then "dogs" else "") ["t"] [] =
        some ["A [[Topic]]".data] ∧
    (["A dogs".data] : List (List Char)) ≠ ["A [[Topic]]".data] := by
  refine ⟨by decide, by decide, by decide⟩
